import Mathlib

/-!
Verification of the dependency-graph / module-resolver core of node-haste.

The definitions below are a shallow embedding of the JavaScript sources:

* `resolveFileExtension`, `resolveFilePlatform`, `resolveFile` embed the
  extension/platform fallback of `utils/resolveFileExtension.js`,
  `src/utils/resolveFilePlatform.js` and `Resolution._resolveFile`;
* `installedSearchLoop` embeds the `node_modules` walk of
  `Resolution._resolveInstalledModule` (including the stateful
  `/node_modules$/g` regex);
* `updateHasteMap` embeds `HasteMap._updateHasteMap`;
* `getMain`, `getReplacements`, `packageRedirectRequire` embed `Package.js`;
* `resolverRedirectRequire`, `resolveModule` embed `Resolution._redirectRequire`
  and `Resolution._resolveModule`;
* `CacheState` with its operations embeds `ResolutionCache.js`;
* `moduleReadDependencies` embeds the dependency computation of `Module.read`.

The repository's `fastpath` path library and `utils/getPlatformExtension.js`
are not present under the sources; those helpers are modelled from the spec
(Node `path` posix semantics), as noted on each definition.
-/

namespace NodeHaste

/-! ### String and path primitives

Modelled from the spec: the repository's `fastpath` module ("Path utilities. A
small pure module providing join, resolve, relative, dirname, basename,
extname, sep, isAbsolute") is not under the provided sources; these follow
Node's posix `path` semantics, computing on the character list of a `String`.
-/

/-- `pre` is a prefix of `s` (JS `String.prototype.startsWith`). -/
def strStartsWith (s pre : String) : Bool :=
  pre.data.isPrefixOf s.data

/-- `suf` is a suffix of `s` (JS `String.prototype.endsWith`). -/
def strEndsWith (s suf : String) : Bool :=
  suf.data.isSuffixOf s.data

/-- Drop the last `n` characters of `s` (JS `slice(0, -n)` for `0 < n ≤ len`). -/
def strDropRight (s : String) (n : Nat) : String :=
  ⟨s.data.take (s.data.length - n)⟩

/-- Drop the first `n` characters of `s`. -/
def strDropLeft (s : String) (n : Nat) : String :=
  ⟨s.data.drop n⟩

/-- The characters of the basename of a path: everything after the last `/`. -/
def basenameChars (s : String) : List Char :=
  (s.data.reverse.takeWhile (· != '/')).reverse

/-- The extension of a basename per Node `path.extname`: the segment from the
last dot on, empty when there is no dot, when the dot is the basename's first
character (dotfiles such as `.bashrc` carry no extension), or for `..`. -/
def extOfBase (b : List Char) : List Char :=
  if b = ['.', '.'] then []
  else
    let extRev := b.reverse.takeWhile (· != '.')
    if extRev.length = b.length then []
    else if extRev.length + 1 = b.length then []
    else '.' :: extRev.reverse

/-- Node posix `path.extname`. -/
def extname (s : String) : String :=
  ⟨extOfBase (basenameChars s)⟩

/-- Node posix `path.dirname`: everything before the last `/`; `/` for a
top-level entry, `.` for a path with no slash at all. -/
def dirname (s : String) : String :=
  match s.data.reverse.dropWhile (· != '/') with
  | [] => "."
  | _ :: rest => if rest = [] then "/" else ⟨rest.reverse⟩

/-- Node posix `path.isAbsolute`. -/
def isAbsolute (s : String) : Bool :=
  strStartsWith s "/"

/-- Split a character list at every occurrence of `c`. -/
def splitChars (c : Char) : List Char → List (List Char)
  | [] => [[]]
  | x :: xs =>
    match splitChars c xs with
    | [] => [[]]
    | h :: t => if x = c then [] :: h :: t else (x :: h) :: t

/-- The `/`-separated segments of a path. -/
def pathSegs (s : String) : List String :=
  (splitChars '/' s.data).map (fun cs => (⟨cs⟩ : String))

/-- Normalize a segment list the way Node `path.normalize` does: drop empty
segments and `.`, let `..` cancel the preceding segment. -/
def normSegsAux (acc : List String) : List String → List String
  | [] => acc.reverse
  | seg :: rest =>
    if seg = "" ∨ seg = "." then normSegsAux acc rest
    else if seg = ".." then
      match acc with
      | [] => normSegsAux [".."] rest
      | top :: tail =>
        if top = ".." then normSegsAux (".." :: seg :: tail) rest
        else normSegsAux tail rest
    else normSegsAux (seg :: acc) rest

/-- Node posix `path.join` of two pieces. -/
def joinPath (a b : String) : String :=
  let segs := normSegsAux [] (pathSegs a ++ pathSegs b)
  let core := String.intercalate "/" segs
  if isAbsolute a then "/" ++ core else if core = "" then "." else core

/-- Node posix `path.resolve base p` for an absolute `base`. -/
def resolvePath (base p : String) : String :=
  if isAbsolute p then joinPath p "" else joinPath base p

/-- Drop the common prefix of two segment lists. -/
def dropCommonPrefix : List String → List String → List String × List String
  | a :: as, b :: bs =>
    if a = b then dropCommonPrefix as bs else (a :: as, b :: bs)
  | as, bs => (as, bs)

/-- Node posix `path.relative` between two absolute paths. -/
def relativePath (base target : String) : String :=
  let p := dropCommonPrefix (normSegsAux [] (pathSegs base)) (normSegsAux [] (pathSegs target))
  String.intercalate "/" (List.replicate p.1.length ".." ++ p.2)

/-- First-match lookup in an association list. -/
def lookupKey {κ β : Type} [DecidableEq κ] : List (κ × β) → κ → Option β
  | [], _ => none
  | (k, v) :: rest, key => if k = key then some v else lookupKey rest key

/-- Replace the binding of `key` in place, appending when absent. -/
def setKey {κ β : Type} [DecidableEq κ] : List (κ × β) → κ → β → List (κ × β)
  | [], key, v => [(key, v)]
  | (k, w) :: rest, key, v =>
    if k = key then (key, v) :: rest else (k, w) :: setKey rest key v

/-- Remove the binding of `key` (first occurrence). -/
def eraseKey {κ β : Type} [DecidableEq κ] : List (κ × β) → κ → List (κ × β)
  | [], _ => []
  | (k, w) :: rest, key =>
    if k = key then rest else (k, w) :: eraseKey rest key

/-- `utils/resolveFileExtension.js`: with an extension present the path goes
straight to the resolver; otherwise each configured extension is appended in
order and the first non-null resolver result wins. -/
def resolveFileExtension {α : Type} (filePath : String) (extensions : List String)
    (resolver : String → Option α) : Option α :=
  if extname filePath ≠ "" then
    resolver filePath
  else
    extensions.findSome? fun e => resolver (filePath ++ "." ++ e)

/-- `src/utils/resolveFilePlatform.js`: try `{name}.{platform}{ext}`, then
`{name}.native{ext}` when `preferNativePlatform`, then the path as given. -/
def resolveFilePlatform {α : Type} (filePath platform : String)
    (preferNativePlatform : Bool) (resolver : String → Option α) : Option α :=
  let ext := extname filePath
  let filename := if ext = "" then filePath else strDropRight filePath ext.data.length
  match resolver (filename ++ "." ++ platform ++ ext) with
  | some r => some r
  | none =>
    match (if preferNativePlatform then resolver (filename ++ ".native" ++ ext) else none) with
    | some r => some r
    | none => resolver filePath

/-- `Resolution._resolveFile`: extension fallback wrapped around platform
fallback. -/
def resolveFile {α : Type} (filePath : String) (extensions : List String)
    (platform : String) (preferNativePlatform : Bool)
    (resolver : String → Option α) : Option α :=
  resolveFileExtension filePath extensions fun p =>
    resolveFilePlatform p platform preferNativePlatform resolver

/-- The candidate paths `resolveFilePlatform` offers for one file path, in
order. -/
def platformCandidates (filePath platform : String) (preferNativePlatform : Bool) :
    List String :=
  let ext := extname filePath
  let filename := if ext = "" then filePath else strDropRight filePath ext.data.length
  [filename ++ "." ++ platform ++ ext]
    ++ (if preferNativePlatform then [filename ++ ".native" ++ ext] else [])
    ++ [filePath]

/-- All candidate paths a file lookup offers, in order: for a specifier with
an extension only the platform fallback applies; otherwise the platform
fallback of `{base}.{ext}` for each configured extension in order. -/
def fileCandidates (filePath : String) (extensions : List String)
    (platform : String) (preferNativePlatform : Bool) : List String :=
  if extname filePath = "" then
    (extensions.map fun e =>
      platformCandidates (filePath ++ "." ++ e) platform preferNativePlatform).flatten
  else
    platformCandidates filePath platform preferNativePlatform

/-- A concrete resolver that accepts only the platform variant
`/r/b.ios.js`. -/
def iosOnlyResolver : String → Option String :=
  fun p => if p = "/r/b.ios.js" then some p else none

/-- One call of `isNodeModulesDir.test(s)` for the stateful `/node_modules$/g`
regex: a match at position `s.length - 12` must not start before `lastIndex`.
Returns the result and the new `lastIndex`. -/
def regexTestNodeModulesG (lastIndex : Nat) (s : String) : Bool × Nat :=
  if strEndsWith s "node_modules" ∧ lastIndex + 12 ≤ s.data.length then
    (true, s.data.length)
  else
    (false, 0)

/-- The `while` loop of `_resolveInstalledModule`, fuel-indexed; `acc` holds
the queue built so far, in reverse. -/
def installedSearchLoop (moduleName root : String) :
    Nat → String → Nat → List String → Option (List String)
  | 0, _, _, _ => none
  | fuel + 1, dirPath, lastIndex, acc =>
    if dirPath = root then some acc.reverse
    else
      let t := regexTestNodeModulesG lastIndex dirPath
      if t.1 then
        installedSearchLoop moduleName root fuel dirPath t.2 acc
      else
        installedSearchLoop moduleName root fuel (dirname dirPath) t.2
          (joinPath (joinPath dirPath "node_modules") moduleName :: acc)

/-- `path.parse(p).root` for posix paths. -/
def parsedRoot (p : String) : String :=
  if isAbsolute p then "/" else ""

/-- The full `searchQueue` of `_resolveInstalledModule`: the upward walk from
the requester's directory, then the `extraNodeModules` fallback entry when the
specifier's first path component matches one of its keys. -/
def installedSearchQueue (extraNodeModules : List (String × String))
    (modulePath moduleName : String) (fuel : Nat) : Option (List String) :=
  (installedSearchLoop moduleName (parsedRoot modulePath) fuel
      (dirname modulePath) 0 []).map fun q =>
    match pathSegs moduleName with
    | [] => q
    | p0 :: rest =>
      match lookupKey extraNodeModules p0 with
      | some base => q ++ [rest.foldl joinPath base]
      | none => q

/-- The `type` tag of a haste-map entry. -/
inductive HKind where
  | module
  | package
deriving DecidableEq

/-- A haste-map entry: a `Module` or a `Package`, identified by its path. -/
structure HMod where
  kind : HKind
  path : String
deriving DecidableEq

/-- The haste map `this._map`. -/
abbrev HMap := List (String × List (String × HMod))

/-- Modelled from the spec: `utils/getPlatformExtension.js` is required by
`src/src/HasteMap.js` but absent from the sources. Per the spec (§4.3), the
platform of a file is the token between the last two dots of its name when it
is one of the configured platforms (`native` is the reserved key for
`.native.ext` files); an unqualified file carries none. -/
def getPlatformExtension (file : String) (platforms : List String) : Option String :=
  let segs := (splitChars '.' file.data).map (fun cs => (⟨cs⟩ : String))
  match segs.reverse with
  | _ :: tok :: _ :: _ =>
    if tok ∈ platforms ∨ tok = "native" then some tok else none
  | _ => none

/-- The platform key `_updateHasteMap` stores an entry under:
`getPlatformExtension(mod.path, this._platforms) || GENERIC_PLATFORM`. -/
def hastePlatformKey (platforms : List String) (mod : HMod) : String :=
  (getPlatformExtension mod.path platforms).getD "generic"

/-- The message of the fatal `@providesModule naming collision` error, naming
the incoming and the existing path. -/
def collisionMessage (name newPath oldPath : String) : String :=
  "@providesModule naming collision:\n  name:  " ++ name
    ++ "\n  paths: " ++ newPath ++ "\n         " ++ oldPath

/-- `HasteMap._updateHasteMap(name, mod)`: store `mod` under
`(name, platform)`; an existing entry at a different path is replaced when it
is a `Package` and `mod` is a `Module`, and raises the collision error for
every other combination; an entry at the same path is overwritten. -/
def updateHasteMap (platforms : List String) (map : HMap) (name : String)
    (mod : HMod) : Except String HMap :=
  let moduleMap := (lookupKey map name).getD []
  let modulePlatform := hastePlatformKey platforms mod
  match lookupKey moduleMap modulePlatform with
  | some existingModule =>
    if existingModule.path ≠ mod.path then
      if existingModule.kind = HKind.package ∧ mod.kind = HKind.module then
        .ok (setKey map name (setKey moduleMap modulePlatform mod))
      else
        .error (collisionMessage name mod.path existingModule.path)
    else
      .ok (setKey map name (setKey moduleMap modulePlatform mod))
  | none => .ok (setKey map name (setKey moduleMap modulePlatform mod))

/-- Removing the entry at `(name, platform)`, as the deletion sweep of
`HasteMap.processFileChange` does with `delete modulesMap[platform]`. -/
def removeHasteEntry (map : HMap) (name platform : String) : HMap :=
  match lookupKey map name with
  | some moduleMap => setKey map name (eraseKey moduleMap platform)
  | none => map

/-- A `Package` entry used by the C4 witness. -/
def hastePkgW : HMod := ⟨HKind.package, "/a/package.json"⟩

/-- A `Module` entry used by the C4 witness. -/
def hasteModW : HMod := ⟨HKind.module, "/b.js"⟩

/-- A one-name haste map used by the C4 witness. -/
def hasteMapW : HMap := [("Foo", [("generic", hastePkgW)])]

/-- A haste map with an `ios` entry only, used by the C9 witness. -/
def hasteMapIos : HMap := [("Foo", [("ios", ⟨HKind.module, "/b.ios.js"⟩)])]

/-! ### Package (claims C5, C6)

`src/src/Package.js` reads `package.json` and derives `main` and the
`browser`/`react-native` redirection table. Only the `main`, `react-native`
and `browser` fields are consulted; a field is a string or an object mapping
paths to a string or `false`.
-/

/-- A value of the `browser`/`react-native` redirection table: a path string,
or `false` (the module is disabled). -/
inductive TVal where
  | path (s : String)
  | disabled
deriving DecidableEq

/-- The `react-native` or `browser` field of a `package.json`: a string or a
redirection object. -/
inductive RField where
  | text (s : String)
  | table (t : List (String × TVal))
deriving DecidableEq

/-- The part of a parsed `package.json` that `Package.js` consults. -/
structure PkgJson where
  main : Option String
  reactNative : Option RField
  browser : Option RField
deriving DecidableEq

/-- `{[pkg.main]: field}` for a string field (a missing `main` makes the JS
computed key the string `"undefined"`), the object itself otherwise. -/
def fieldTable (pkg : PkgJson) : RField → List (String × TVal)
  | .text s => [(pkg.main.getD "undefined", .path s)]
  | .table t => t

/-- `getReplacements(pkg)`: the `browser` field when `react-native` is null
and vice versa; when both are present, each string field becomes an object
keyed by `pkg.main` and the two are merged with `react-native` as override.
The merge `{...browser, ...rn}` is materialized with the `react-native` table
first, so first-match `lookupKey` equals the JS spread's override. -/
def getReplacements (pkg : PkgJson) : Option RField :=
  match pkg.reactNative, pkg.browser with
  | none, browser => browser
  | rn, none => rn
  | some rn, some browser =>
    some (.table (fieldTable pkg rn ++ fieldTable pkg browser))

/-- `replacements[k]` as the truthiness tests of `getMain` see it: only a
non-empty string value counts (`false` and `''` are falsy and fall through
the `||` chain). -/
def truthyLookup (tbl : List (String × TVal)) (k : String) : Option String :=
  match lookupKey tbl k with
  | some (.path s) => if s = "" then none else some s
  | _ => none

/-- The normalization `getMain` applies to `main`: strip one leading `./`,
then one trailing `.js` or `.json`. -/
def stripMain (m : String) : String :=
  let m1 := if strStartsWith m "./" then strDropLeft m 2 else m
  if strEndsWith m1 ".js" then strDropRight m1 3
  else if strEndsWith m1 ".json" then strDropRight m1 5
  else m1

/-- `Package.getMain()`: a string `replacements` value replaces `main`; a
falsy `main` defaults to `index` with extension `.js`; otherwise the
extension is `main`'s own (default `.js`) and `main` is stripped; an object
`replacements` is consulted at the stripped `main` and at `main + ext`
(falsy values fall through); the extension is appended and the result joined
against the package root. -/
def getMain (pkg : PkgJson) (root : String) : String :=
  let replacements := getReplacements pkg
  let mainField : Option String :=
    match replacements with
    | some (.text s) => some s
    | _ => pkg.main
  let stripped : String × String :=
    match mainField with
    | some m =>
      if m = "" then ("index", ".js")
      else (stripMain m, if extname m = "" then ".js" else extname m)
    | none => ("index", ".js")
  let main1 :=
    match replacements with
    | some (.table tbl) =>
      match truthyLookup tbl stripped.1 with
      | some s => s
      | none =>
        match truthyLookup tbl (stripped.1 ++ stripped.2) with
        | some s => s
        | none => stripped.1
    | _ => stripped.1
  joinPath root (main1 ++ stripped.2)

/-- The computation of `getMain` as claim C5 words it: if the `react-native`
field is a string it replaces `main`; `main` (defaulting to `index`) is
stripped of a leading `./` and a trailing `.js`/`.json`, looked up in the
merged `browser`/`react-native` redirection object (`react-native` overriding
`browser`) when that object exists — generously, under both the stripped name
and the stripped name plus extension — has an extension appended (`.js` by
default), and is joined against the package root. -/
def specGetMain (pkg : PkgJson) (root : String) : String :=
  let mainField : Option String :=
    match pkg.reactNative with
    | some (.text s) => some s
    | _ => pkg.main
  let stripped : String × String :=
    match mainField with
    | some m =>
      if m = "" then ("index", ".js")
      else (stripMain m, if extname m = "" then ".js" else extname m)
    | none => ("index", ".js")
  let mergedTable : Option (List (String × TVal)) :=
    match pkg.reactNative, pkg.browser with
    | some (.table rn), some (.table browser) => some (rn ++ browser)
    | some (.table rn), _ => some rn
    | _, some (.table browser) => some browser
    | _, _ => none
  let main1 :=
    match mergedTable with
    | some tbl =>
      match truthyLookup tbl stripped.1 with
      | some s => s
      | none =>
        match truthyLookup tbl (stripped.1 ++ stripped.2) with
        | some s => s
        | none => stripped.1
    | none => stripped.1
  joinPath root (main1 ++ stripped.2)

/-! ### Require redirection (claim C6)

`Package.redirectRequire(moduleName, resolveFilePath)` consults the merged
redirection table; `Resolution._redirectRequire` wires `_resolveFile` in as
the `resolveFilePath` hook and applies the global redirect table of the
`ModuleCache` afterwards.
-/

/-- The inner `redirect` closure of `redirectRequire`: `ok none` is the JS
`undefined` (no replacement), `ok (some none)` is `null` (a `false` value —
the module is disabled), `ok (some (some p))` is a replacement joined against
the package root; an absolute replacement throws. -/
def redirectVal (tbl : List (String × TVal)) (root key : String) :
    Except String (Option (Option String)) :=
  match lookupKey tbl key with
  | some .disabled => .ok (some none)
  | some (.path s) =>
    if isAbsolute s then
      .error ("Redirections cannot use absolute paths: " ++ s)
    else
      .ok (some (some (joinPath root s)))
  | none => .ok none

/-- The `redirect` closure as the `resolveFilePath` hook's fallback loops see
it: they keep only a result `!= null`, so both `undefined` and `null` (a
`false` value on an expanded candidate) read as a miss. -/
def redirectHookVal (tbl : List (String × TVal)) (root key : String) :
    Except String (Option String) :=
  match redirectVal tbl root key with
  | .error e => .error e
  | .ok (some (some p)) => .ok (some p)
  | .ok _ => .ok none

/-- Sequential first-hit search over candidate paths for a resolver that can
throw: the exception-aware counterpart of the `result != null` loops of
`resolveFileExtension`/`resolveFilePlatform`. -/
def findSomeE {α : Type} (resolver : String → Except String (Option α)) :
    List String → Except String (Option α)
  | [] => .ok none
  | c :: rest =>
    match resolver c with
    | .error e => .error e
    | .ok (some v) => .ok (some v)
    | .ok none => findSomeE resolver rest

/-- `Resolution._resolveFile` for a throwing resolver: with an extension the
platform candidates of the path itself are tried; without one the platform
candidates of `{path}.{ext}` for each configured extension, in order. -/
def resolveFileE {α : Type} (filePath : String) (extensions : List String)
    (platform : String) (pnp : Bool)
    (resolver : String → Except String (Option α)) : Except String (Option α) :=
  if extname filePath ≠ "" then
    findSomeE resolver (platformCandidates filePath platform pnp)
  else
    findSomeE (fun c => findSomeE resolver (platformCandidates c platform pnp))
      (extensions.map fun e => filePath ++ "." ++ e)

/-- The key `redirectRequire` consults the table at: the requested name, made
relative to the package root with a leading `./` when it is absolute. -/
def redirectKey (root moduleName : String) : String :=
  if isAbsolute moduleName then "./" ++ relativePath root moduleName else moduleName

/-- `Package.redirectRequire(moduleName, resolveFilePath)`: a relative
`moduleName` throws; with no object-valued replacements the name passes
through; otherwise the lookup key is the name made relative to the package
root (with a leading `./`) when absolute, the table is consulted at that key
(`false` disables — `ok none` —, a relative string is joined to the root, an
absolute string throws), on `undefined` the `_resolveFile` hook retries the
key's extension/platform variants through the same table, and when that too
misses the original name is returned unchanged. -/
def packageRedirectRequire (pkg : PkgJson) (root platform : String) (pnp : Bool)
    (extensions : List String) (moduleName : String) : Except String (Option String) :=
  if strStartsWith moduleName "." then
    .error "Relative paths are not supported!"
  else
    match getReplacements pkg with
    | some (.table tbl) =>
      let modulePath := redirectKey root moduleName
      match redirectVal tbl root modulePath with
      | .error e => .error e
      | .ok (some r) => .ok r
      | .ok none =>
        match resolveFileE modulePath extensions platform pnp (redirectHookVal tbl root) with
        | .error e => .error e
        | .ok (some p) => .ok (some p)
        | .ok none => .ok (some moduleName)
    | _ => .ok (some moduleName)

/-- A value of the global redirect table (`ModuleCache._redirect`): a
substitute path or `false`. -/
inductive GVal where
  | path (s : String)
  | disabled
deriving DecidableEq

/-- `Resolution._redirectRequire(requiredPath)`: without a package the path
passes to the global step unchanged; with one, `redirectRequire` is applied
to the absolutized path (a result equal to that path is mapped back to the
original `requiredPath`); then the global table is consulted at the outcome
(`null` looks up the literal key `"null"`): `false` nullifies, a truthy value
substitutes, a miss or falsy value keeps the package-step outcome. -/
def resolverRedirectRequire (pkgInfo : Option (PkgJson × String))
    (globalRedirect : List (String × GVal)) (moduleDir platform : String)
    (pnp : Bool) (extensions : List String) (requiredPath : String) :
    Except String (Option String) :=
  let step1 : Except String (Option String) :=
    match pkgInfo with
    | none => .ok (some requiredPath)
    | some (pkg, root) =>
      let absPath := resolvePath moduleDir requiredPath
      match packageRedirectRequire pkg root platform pnp extensions absPath with
      | .error e => .error e
      | .ok r => .ok (if r = some absPath then some requiredPath else r)
  match step1 with
  | .error e => .error e
  | .ok r =>
    let key := match r with | some s => s | none => "null"
    match lookupKey globalRedirect key with
    | some .disabled => .ok none
    | some (.path s) => .ok (if s = "" then r else some s)
    | none => .ok r

/-! ### The resolver's strategy chain (claim C1)

`Resolution._resolveModule` chains the strategies with

    this._resolveAssetModule(p)
      .fail(e => ignoreResolveErrors(e) && this._resolveHasteModule(p)
        .fail(e => ignoreResolveErrors(e) && this._resolveLotusModule(p)
          .fail(e => ignoreResolveErrors(e) && this._resolveNodeModule(p))))

after the redirect step; `ignoreResolveErrors` rethrows anything that is not
an `UnableToResolveError`. A strategy is embedded as a function from the
(redirected) path to its outcome.
-/

/-- An error escaping a resolution strategy: the recoverable
`UnableToResolveError`, or any other error. -/
inductive RErr where
  | unableToResolve
  | other (msg : String)
deriving DecidableEq

/-- A module as the resolver returns it; `nullMod p` is
`moduleCache.getNullModule(p)`. -/
inductive RMod where
  | nullMod (path : String)
  | mod (path : String)
deriving DecidableEq

/-- `promise.fail(e => ignoreResolveErrors(e) && next)`: keep a success, run
`next` after an `UnableToResolveError`, rethrow anything else. -/
def failWithIgnore (p : Except RErr RMod) (next : Unit → Except RErr RMod) :
    Except RErr RMod :=
  match p with
  | .ok m => .ok m
  | .error .unableToResolve => next ()
  | .error e => .error e

/-- `Resolution._resolveModule(requiredPath)`: apply the redirect step; a
non-string outcome short-circuits to the null module for the original
`requiredPath`; otherwise the asset, haste, lotus (project-path) and node
(installed-package) strategies are chained on the redirected path. -/
def resolveModule (requiredPath : String)
    (redirected : Except RErr (Option String))
    (asset haste lotus node : String → Except RErr RMod) : Except RErr RMod :=
  match redirected with
  | .error e => .error e
  | .ok none => .ok (.nullMod requiredPath)
  | .ok (some p) =>
    failWithIgnore (asset p) fun _ =>
      failWithIgnore (haste p) fun _ =>
        failWithIgnore (lotus p) fun _ => node p

/-- The instrumented strategy chain: the list of strategy outcomes that were
actually attempted (in order), and the overall outcome. A strategy runs
exactly when every earlier one rejected with `UnableToResolveError`; an empty
chain rejects with `UnableToResolveError`. -/
def chainTrace : List (Except RErr RMod) → List (Except RErr RMod) × Except RErr RMod
  | [] => ([], .error .unableToResolve)
  | r :: rest =>
    match r with
    | .error .unableToResolve =>
      let t := chainTrace rest
      (r :: t.1, t.2)
    | x => ([r], x)

/-- A `package.json` with a string `react-native` field *and* a `browser`
object, used by the C5 counterexample. -/
def pkgBothFields : PkgJson :=
  ⟨some "foo.js", some (.text "rn.js"), some (.table [])⟩

/-- A `package.json` with a string `react-native` field and no `browser`
field, used by the C5 witness. -/
def pkgRnOnly : PkgJson :=
  ⟨some "lib/main.js", some (.text "lib/rn.js"), none⟩

/-- A package whose table redirects `./a.js`, used by the C6 counterexample. -/
def pkgRedirA : PkgJson :=
  ⟨none, some (.table [("./a.js", TVal.path "./b.js")]), none⟩

/-- A package whose table disables `./x.js`, used by the C6 witness. -/
def pkgDisableX : PkgJson :=
  ⟨none, some (.table [("./x.js", TVal.disabled)]), none⟩

/-! ### ResolutionCache (claims C3, C8)

`src/src/ResolutionCache.js` keeps `_resolutions : Map<Module, Resolution>`,
`_dependers : Map<Module, Set<Module>>`, the sets `_resolving` and `_dirty`
of resolutions, and `_allResolved`, a deferred promise present (and
unfulfilled) while `_resolving` is non-empty. Modules (and their 1:1
resolutions) are embedded as `Nat` handles; the maps as association lists
(keys unique, as in a JS `Map`); the barrier as the `Bool` "a promise is
present"; the emitted events (`didCreate`, `didDelete`, the barrier's
fulfillment) as an append-only log in the state.
-/

/-- An observable event of the cache: `didCreate`/`didDelete` emissions and
the fulfillment of the `_allResolved` barrier. -/
inductive CacheEvent where
  | didCreate (m : Nat)
  | didDelete (m : Nat)
  | barrierFulfilled
deriving DecidableEq

/-- The state of a `ResolutionCache`. -/
structure CacheState where
  resolutions : List Nat
  dependers : List (Nat × List Nat)
  resolving : List Nat
  dirty : List Nat
  allResolved : Bool
  events : List CacheEvent
deriving DecidableEq

/-- A fresh cache. -/
def initCache : CacheState := ⟨[], [], [], [], false, []⟩

/-- `getResolution(module)`: create the record on a miss and emit
`didCreate`. -/
def getResolution (s : CacheState) (m : Nat) : CacheState :=
  if m ∈ s.resolutions then s
  else { s with resolutions := m :: s.resolutions,
                events := s.events ++ [.didCreate m] }

/-- `deleteResolution(module)`: when a record exists, drop it, drop the
module's dependers entry, drop the record from `_dirty`, and emit
`didDelete`. -/
def deleteResolution (s : CacheState) (m : Nat) : CacheState :=
  if m ∈ s.resolutions then
    { s with resolutions := s.resolutions.erase m,
             dependers := eraseKey s.dependers m,
             dirty := s.dirty.erase m,
             events := s.events ++ [.didDelete m] }
  else s

/-- `markDirty(resolution)`: `Set.add`. -/
def markDirty (s : CacheState) (r : Nat) : CacheState :=
  if r ∈ s.dirty then s else { s with dirty := r :: s.dirty }

/-- `markResolving(resolution)`: on first entry add to `_resolving`, create
the barrier if absent, and report `true` (`needsResolving`). -/
def markResolving (s : CacheState) (r : Nat) : CacheState × Bool :=
  if r ∈ s.resolving then (s, false)
  else ({ s with resolving := r :: s.resolving, allResolved := true }, true)

/-- `markResolved(resolution)`: remove from `_resolving`; when the set
becomes empty, fulfill the barrier and null it out. -/
def markResolved (s : CacheState) (r : Nat) : CacheState × Bool :=
  if r ∈ s.resolving then
    let resolving := s.resolving.erase r
    if resolving = [] then
      ({ s with resolving := [], allResolved := false,
                events := s.events ++ [.barrierFulfilled] }, true)
    else
      ({ s with resolving := resolving }, true)
  else (s, false)

/-- `addDepender(module, depender)`: create the set on a miss, add. -/
def addDepender (s : CacheState) (m d : Nat) : CacheState :=
  let cur := (lookupKey s.dependers m).getD []
  { s with dependers := setKey s.dependers m (if d ∈ cur then cur else cur ++ [d]) }

/-- `deleteDepender(module, depender)`: remove the depender from the
module's set; when the set becomes empty, `deleteResolution(module)`. -/
def deleteDepender (s : CacheState) (m d : Nat) : CacheState :=
  match lookupKey s.dependers m with
  | none => s
  | some cur =>
    let cur2 := cur.erase d
    let s2 := { s with dependers := setKey s.dependers m cur2 }
    if cur2 = [] then deleteResolution s2 m else s2

/-- `clearDependers(module)`: drop the dependers entry; each depender's
resolution may be marked dirty through `Resolution.markDirty` (which adds to
`_dirty` only for a still-pending specifier), so the net `_dirty` additions
are a parameter. -/
def clearDependers (s : CacheState) (m : Nat) (newlyDirty : List Nat) : CacheState :=
  match lookupKey s.dependers m with
  | none => s
  | some _ =>
    { s with dependers := eraseKey s.dependers m,
             dirty := newlyDirty.foldl (fun d r => if r ∈ d then d else r :: d) s.dirty }

/-- `_flushDirty(options)`: schedule `reloadRequires({force: true,
recursive: false})` on every dirty resolution and clear the dirty set. The
scheduled calls are returned as `(resolution, force, recursive)` descriptors. -/
def flushDirty (s : CacheState) : CacheState × List (Nat × Bool × Bool) :=
  if s.dirty = [] then (s, [])
  else ({ s with dirty := [] }, s.dirty.map fun r => (r, true, false))

/-- `allResolved(options)`: flush the dirty set, then return the current
barrier (`s.allResolved`). -/
def allResolvedOp (s : CacheState) : CacheState × List (Nat × Bool × Bool) × Bool :=
  ((flushDirty s).1, (flushDirty s).2, s.allResolved)

/-- The reachable cache states: every state produced from the fresh cache by
the cache's own operations. -/
inductive Reachable : CacheState → Prop where
  | init : Reachable initCache
  | stepGetResolution (s : CacheState) (m : Nat) (h : Reachable s) :
      Reachable (getResolution s m)
  | stepDeleteResolution (s : CacheState) (m : Nat) (h : Reachable s) :
      Reachable (deleteResolution s m)
  | stepMarkDirty (s : CacheState) (r : Nat) (h : Reachable s) :
      Reachable (markDirty s r)
  | stepMarkResolving (s : CacheState) (r : Nat) (h : Reachable s) :
      Reachable (markResolving s r).1
  | stepMarkResolved (s : CacheState) (r : Nat) (h : Reachable s) :
      Reachable (markResolved s r).1
  | stepAddDepender (s : CacheState) (m d : Nat) (h : Reachable s) :
      Reachable (addDepender s m d)
  | stepDeleteDepender (s : CacheState) (m d : Nat) (h : Reachable s) :
      Reachable (deleteDepender s m d)
  | stepClearDependers (s : CacheState) (m : Nat) (newlyDirty : List Nat)
      (h : Reachable s) : Reachable (clearDependers s m newlyDirty)
  | stepAllResolved (s : CacheState) (h : Reachable s) :
      Reachable (allResolvedOp s).1

/-- A concrete cache state used by the C8 witness: module 0 holds a
resolution record and exactly one depender, module 1. -/
def cacheStateW : CacheState := ⟨[0], [(0, [1])], [], [], false, []⟩

/-! ### Module.read (claim C10)

In `Module.read`, after the transform, the dependency list is

    const {code, dependencies = extern ? [] : this._extractor(code).deps.sync}
      = result;

with `extern = this.isJSON() || 'extern' in moduleDocBlock` and
`isJSON() = fp.extname(this.path) === '.json'`. The docblock is embedded as
its parsed directive list, the transform outcome as `TransformResult`, and
the external `extractRequires` contract as the `extractor` parameter. -/

/-- What the transform returns: the code and, optionally, an explicit
dependency list. -/
structure TransformResult where
  code : String
  dependencies : Option (List String)

/-- The `dependencies` field of `Module.read`'s result. -/
def moduleReadDependencies (modulePath : String)
    (moduleDocBlock : List (String × String))
    (result : TransformResult) (extractor : String → List String) : List String :=
  match result.dependencies with
  | some d => d
  | none =>
    if extname modulePath = ".json" ∨ (lookupKey moduleDocBlock "extern").isSome then
      []
    else
      extractor result.code

/-- An extractor that reports one dependency whatever the code, used by the
C10 theorems. -/
def oneDepExtractor : String → List String := fun _ => ["x"]

/-- A transform result with no explicit dependency list, used by the C10
witness. -/
def plainTransformResult : TransformResult := ⟨"code", none⟩

/-! ## Theorems -/

theorem listFindSome_append {α β : Type} (l₁ l₂ : List α) (f : α → Option β) :
    (l₁ ++ l₂).findSome? f
      = match l₁.findSome? f with
        | some b => some b
        | none => l₂.findSome? f := by
  induction l₁ with
  | nil => simp
  | cons a l ih =>
    simp only [List.cons_append, List.findSome?_cons]
    cases f a <;> simp [ih]

theorem lookupKey_setKey_self {κ β : Type} [DecidableEq κ] (l : List (κ × β))
    (k : κ) (v : β) : lookupKey (setKey l k v) k = some v := by
  induction l with
  | nil => simp [setKey, lookupKey]
  | cons p rest ih =>
    by_cases h : p.1 = k <;> simp [setKey, lookupKey, h, ih]

theorem setKey_of_lookup_none {κ β : Type} [DecidableEq κ] (l : List (κ × β))
    (k : κ) (v : β) (h : lookupKey l k = none) : setKey l k v = l ++ [(k, v)] := by
  induction l with
  | nil => simp [setKey]
  | cons p rest ih =>
    by_cases hp : p.1 = k
    · simp [lookupKey, hp] at h
    · simp only [lookupKey, hp, if_neg, reduceIte] at h
      simp [setKey, hp, ih h]

theorem eraseKey_append_single {κ β : Type} [DecidableEq κ] (l : List (κ × β))
    (k : κ) (v : β) (h : lookupKey l k = none) : eraseKey (l ++ [(k, v)]) k = l := by
  induction l with
  | nil => simp [eraseKey]
  | cons p rest ih =>
    by_cases hp : p.1 = k
    · simp [lookupKey, hp] at h
    · simp only [lookupKey, hp, if_neg, reduceIte] at h
      simp [eraseKey, hp, ih h]

theorem setKey_setKey {κ β : Type} [DecidableEq κ] (l : List (κ × β))
    (k : κ) (v w : β) : setKey (setKey l k v) k w = setKey l k w := by
  induction l with
  | nil => simp [setKey]
  | cons p rest ih =>
    by_cases hp : p.1 = k <;> simp [setKey, hp, ih]

theorem setKey_of_lookup_some {κ β : Type} [DecidableEq κ] (l : List (κ × β))
    (k : κ) (v : β) (h : lookupKey l k = some v) : setKey l k v = l := by
  induction l with
  | nil => simp [lookupKey] at h
  | cons p rest ih =>
    by_cases hp : p.1 = k
    · simp only [lookupKey, hp, if_pos, reduceIte, Option.some.injEq] at h
      obtain ⟨hk, hv⟩ := p
      simp only at hp h
      simp [setKey, hp, h]
    · simp only [lookupKey, hp, if_neg, reduceIte] at h
      simp [setKey, hp, ih h]

theorem resolveFilePlatform_eq_findSome {α : Type} (filePath platform : String)
    (pnp : Bool) (resolver : String → Option α) :
    resolveFilePlatform filePath platform pnp resolver
      = (platformCandidates filePath platform pnp).findSome? resolver := by
  cases pnp <;>
    simp only [resolveFilePlatform, platformCandidates, if_true, if_false,
      Bool.false_eq_true, List.findSome?, List.nil_append, List.cons_append,
      List.findSome?_cons, List.findSome?_nil] <;>
    rcases h1 : resolver _ with _ | r1 <;> simp_all <;>
    rcases h2 : resolver _ with _ | r2 <;> simp_all <;>
    rcases h3 : resolver _ with _ | r3 <;> simp_all

/-- C2 (amended). Every file lookup tries exactly the candidates of
`fileCandidates`, in order, and returns the first one the underlying resolver
accepts: a specifier carrying an extension gets the platform fallback applied
to it (`{base}.{platform}{ext}`, then `{base}.native{ext}` when
`preferNativePlatform`, then the path as-is); a specifier with no extension
gets the platform fallback of `{base}.{ext}` for each configured extension in
order. -/
theorem resolveFile_first_accepted_candidate {α : Type} (filePath : String)
    (extensions : List String) (platform : String) (pnp : Bool)
    (resolver : String → Option α) :
    resolveFile filePath extensions platform pnp resolver
      = (fileCandidates filePath extensions platform pnp).findSome? resolver := by
  unfold resolveFile resolveFileExtension fileCandidates
  by_cases h : extname filePath = ""
  · simp only [h, ne_eq, not_true_eq_false, if_false, if_true, reduceIte]
    induction extensions with
    | nil => simp
    | cons e es ih =>
      simp only [List.findSome?_cons, List.map_cons, List.flatten_cons]
      rw [listFindSome_append, resolveFilePlatform_eq_findSome]
      cases (platformCandidates (filePath ++ "." ++ e) platform pnp).findSome? resolver <;>
        simp [ih]
  · simp [h, resolveFilePlatform_eq_findSome]

/-- C2 counterexample. The specifier `/r/b.js` carries an extension, yet the
lookup does not use the path as-is: the platform variant `/r/b.ios.js` is
tried first and wins, while the resolver rejects `/r/b.js` itself. -/
theorem resolveFile_ext_not_used_as_is :
    resolveFile "/r/b.js" ["js"] "ios" false iosOnlyResolver = some "/r/b.ios.js"
      ∧ iosOnlyResolver "/r/b.js" = none
      ∧ resolveFile "/r/b.js" ["js"] "ios" false iosOnlyResolver
          ≠ iosOnlyResolver "/r/b.js" := by
  refine ⟨by decide, by decide, by decide⟩

/-- C7: evaluating the walk for a requester inside a `node_modules` directory.
The queue contains `/a/node_modules/node_modules/m` — the directory
`/a/node_modules` is *not* skipped (it is visited twice: the first regex test
succeeds and `continue` skips the `dirname` step without enqueueing, the
second test fails because of the regex's stale `lastIndex`, so the entry is
pushed), contradicting the code's own comment "Never try
'node_modules/node_modules'". -/
theorem installedSearchQueue_nm_nm :
    installedSearchQueue [] "/a/node_modules/b/x.js" "m" 9
      = some ["/a/node_modules/b/node_modules/m",
              "/a/node_modules/node_modules/m",
              "/a/node_modules/m"] := by
  decide

/-- C4. When the map holds an entry for `name` at `mod`'s platform:
if the paths differ, the update replaces the entry exactly when the existing
entry is a `Package` and `mod` is a `Module`, and fails with the fatal
collision error naming both paths for every other kind combination; an entry
at the same path is overwritten without error. -/
theorem updateHasteMap_collision_rule (platforms : List String) (map : HMap)
    (name : String) (mod existingModule : HMod)
    (hex : lookupKey ((lookupKey map name).getD []) (hastePlatformKey platforms mod)
      = some existingModule) :
    (existingModule.path ≠ mod.path →
      existingModule.kind = HKind.package → mod.kind = HKind.module →
        updateHasteMap platforms map name mod
          = .ok (setKey map name
              (setKey ((lookupKey map name).getD []) (hastePlatformKey platforms mod) mod)))
    ∧ (existingModule.path ≠ mod.path →
        ¬(existingModule.kind = HKind.package ∧ mod.kind = HKind.module) →
        updateHasteMap platforms map name mod
          = .error (collisionMessage name mod.path existingModule.path))
    ∧ (existingModule.path = mod.path →
        updateHasteMap platforms map name mod
          = .ok (setKey map name
              (setKey ((lookupKey map name).getD []) (hastePlatformKey platforms mod) mod))) := by
  refine ⟨fun hne hp hm => ?_, fun hne hk => ?_, fun heq => ?_⟩ <;>
    simp [updateHasteMap, hex, *]

/-- C4 witness: at a concrete map, a `Module` at a different path overrides an
existing `Package` entry without error. -/
theorem updateHasteMap_collision_rule_witness :
    updateHasteMap [] hasteMapW "Foo" hasteModW
      = .ok [("Foo", [("generic", hasteModW)])] := by
  have h :=
    (updateHasteMap_collision_rule [] hasteMapW "Foo" hasteModW hastePkgW rfl).1
      (by decide) rfl rfl
  simpa using h

/-- C9 counterexample. Updating a map whose `(Foo, generic)` slot holds a
`Package` with a `Module` at a different path succeeds (the module overrides
the package), and then removing `(Foo, generic)` does not restore the prior
map: the package entry is gone. -/
theorem updateHasteMap_not_roundTrip :
    updateHasteMap [] hasteMapW "Foo" hasteModW = .ok [("Foo", [("generic", hasteModW)])]
      ∧ removeHasteEntry [("Foo", [("generic", hasteModW)])] "Foo" "generic"
          ≠ hasteMapW :=
  ⟨rfl, by decide⟩

/-- C9 (amended). The round-trip does restore the map exactly when the name
already has a submap and no entry exists at `(name, platform)`: the update
appends the new entry and removal erases precisely it. In general the update
may overwrite an existing entry, which the removal does not restore, and a
fresh name leaves an empty submap behind. -/
theorem updateHasteMap_roundTrip_fresh_platform (platforms : List String)
    (map : HMap) (name : String) (mod : HMod) (inner : List (String × HMod))
    (hname : lookupKey map name = some inner)
    (hplat : lookupKey inner (hastePlatformKey platforms mod) = none) :
    updateHasteMap platforms map name mod
        = .ok (setKey map name (inner ++ [(hastePlatformKey platforms mod, mod)]))
      ∧ removeHasteEntry (setKey map name (inner ++ [(hastePlatformKey platforms mod, mod)]))
          name (hastePlatformKey platforms mod) = map := by
  constructor
  · simp [updateHasteMap, hname, hplat, setKey_of_lookup_none inner _ mod hplat]
  · rw [removeHasteEntry, lookupKey_setKey_self]
    dsimp only
    rw [eraseKey_append_single inner _ mod hplat, setKey_setKey,
      setKey_of_lookup_some map name inner hname]

/-- C9 witness: at a concrete map with only an `ios` entry for `Foo`, adding a
generic module and removing `(Foo, generic)` restores the map. -/
theorem updateHasteMap_roundTrip_witness :
    removeHasteEntry
        (setKey hasteMapIos "Foo"
          ([("ios", ⟨HKind.module, "/b.ios.js"⟩)] ++ [("generic", hasteModW)]))
        "Foo" "generic" = hasteMapIos :=
  (updateHasteMap_roundTrip_fresh_platform [] hasteMapIos "Foo" hasteModW
    [("ios", ⟨HKind.module, "/b.ios.js"⟩)] rfl rfl).2

/-- C5 counterexample. For a package whose `react-native` field is the string
`rn.js` but whose `browser` field is also present (`{}`), the string does not
replace `main`: the two fields are merged into an object keyed by the raw
`main`, the redirection lookup rewrites the stripped `main` to `rn.js`, and
the extension is appended on top, yielding `/p/rn.js.js` where the claim's
reading yields `/p/rn.js`. -/
theorem getMain_rn_string_not_replacing :
    getMain pkgBothFields "/p" = "/p/rn.js.js"
      ∧ specGetMain pkgBothFields "/p" = "/p/rn.js"
      ∧ getMain pkgBothFields "/p" ≠ specGetMain pkgBothFields "/p" :=
  ⟨rfl, rfl, by decide⟩

/-- C5 (amended). Whenever the `browser` field is absent, `getMain` computes
exactly what the claim describes (`specGetMain`): a string `react-native`
field replaces `main`; `main` (defaulting to `index`) is stripped of a
leading `./` and a trailing `.js`/`.json`, looked up in the redirection
object when one exists, has an extension appended (`.js` by default) and is
joined against the package root. When both `react-native` and `browser` are
present they are merged into a redirection object (a string field keyed under
the raw `main`), and `main` is replaced only through the redirection lookup. -/
theorem getMain_matches_spec_without_browser (pkg : PkgJson) (root : String)
    (hb : pkg.browser = none) : getMain pkg root = specGetMain pkg root := by
  rcases hrn : pkg.reactNative with _ | f
  · simp [getMain, specGetMain, getReplacements, hb, hrn]
  · cases f <;> simp [getMain, specGetMain, getReplacements, hb, hrn]

/-- C5 witness: at a concrete package with a string `react-native` field and
no `browser` field, `getMain` equals the claim's description. -/
theorem getMain_matches_spec_witness :
    getMain pkgRnOnly "/p" = specGetMain pkgRnOnly "/p" :=
  getMain_matches_spec_without_browser pkgRnOnly "/p" rfl

/-- C6 counterexample. With the table `{"./a.js": "./b.js"}` and the request
`/r/a`, the lookup key `./a` misses the table, yet the request is not
returned unchanged: the `_resolveFile` hook retries the extension-expanded
variant `./a.js` through the table and the redirection wins. -/
theorem packageRedirect_key_miss_not_unchanged :
    lookupKey [("./a.js", TVal.path "./b.js")] "./a" = none
      ∧ packageRedirectRequire pkgRedirA "/r" "ios" false ["js"] "/r/a"
          = .ok (some "/r/b.js")
      ∧ (some "/r/b.js" : Option String) ≠ some "/r/a" :=
  ⟨rfl, rfl, by decide⟩

/-- C6 (amended). For every request with an object-valued redirection table:
the lookup key is the request made relative to the package root with a
leading `./` when absolute; a table value of `false` at that key disables the
request (`ok none`, which the resolver turns into a `NullModule` for the
original specifier); an absolute-path value raises an error; a relative
string value is joined to the package root; on a key miss the
extension/platform-expanded variants of the key are retried through the same
table via the file-resolution hook, and only when those too miss is the
original request returned unchanged. The global redirect table is consulted
only after package-level redirection, on its outcome: `false` nullifies, any
other (truthy) value substitutes, a miss keeps the package outcome. -/
theorem redirectRequire_semantics (pkg : PkgJson) (root platform : String)
    (pnp : Bool) (extensions : List String) (moduleName : String)
    (tbl : List (String × TVal))
    (hrepl : getReplacements pkg = some (.table tbl))
    (hrel : strStartsWith moduleName "." = false) :
    (lookupKey tbl (redirectKey root moduleName) = some TVal.disabled →
      packageRedirectRequire pkg root platform pnp extensions moduleName = .ok none)
    ∧ (∀ s, lookupKey tbl (redirectKey root moduleName) = some (TVal.path s) →
        isAbsolute s = true →
        packageRedirectRequire pkg root platform pnp extensions moduleName
          = .error ("Redirections cannot use absolute paths: " ++ s))
    ∧ (∀ s, lookupKey tbl (redirectKey root moduleName) = some (TVal.path s) →
        isAbsolute s = false →
        packageRedirectRequire pkg root platform pnp extensions moduleName
          = .ok (some (joinPath root s)))
    ∧ (lookupKey tbl (redirectKey root moduleName) = none →
        resolveFileE (redirectKey root moduleName) extensions platform pnp
            (redirectHookVal tbl root) = .ok none →
        packageRedirectRequire pkg root platform pnp extensions moduleName
          = .ok (some moduleName))
    ∧ (∀ (globalRedirect : List (String × GVal)) (moduleDir requiredPath p : String),
        packageRedirectRequire pkg root platform pnp extensions
            (resolvePath moduleDir requiredPath) = .ok (some p) →
        p ≠ resolvePath moduleDir requiredPath →
        ((lookupKey globalRedirect p = some GVal.disabled →
            resolverRedirectRequire (some (pkg, root)) globalRedirect moduleDir
              platform pnp extensions requiredPath = .ok none)
          ∧ (∀ s, lookupKey globalRedirect p = some (GVal.path s) → s ≠ "" →
              resolverRedirectRequire (some (pkg, root)) globalRedirect moduleDir
                platform pnp extensions requiredPath = .ok (some s))
          ∧ (lookupKey globalRedirect p = none →
              resolverRedirectRequire (some (pkg, root)) globalRedirect moduleDir
                platform pnp extensions requiredPath = .ok (some p))))
    ∧ (∀ (requiredPath : String) (asset haste lotus node : String → Except RErr RMod),
        resolveModule requiredPath (.ok none) asset haste lotus node
          = .ok (.nullMod requiredPath)) := by
  refine ⟨fun h => ?_, fun s h habs => ?_, fun s h habs => ?_, fun h hhook => ?_,
    fun globalRedirect moduleDir requiredPath p hpkg hne => ⟨fun h => ?_, fun s h hs => ?_, fun h => ?_⟩,
    fun requiredPath asset haste lotus node => rfl⟩ <;>
    simp_all [packageRedirectRequire, resolverRedirectRequire, redirectVal]

/-- C6 witness: at a concrete package whose table disables `./x.js`, the
absolute request `/r/x.js` resolves to the disabled outcome. -/
theorem redirectRequire_semantics_witness :
    packageRedirectRequire pkgDisableX "/r" "ios" false ["js"] "/r/x.js" = .ok none :=
  (redirectRequire_semantics pkgDisableX "/r" "ios" false ["js"] "/r/x.js"
    [("./x.js", TVal.disabled)] rfl rfl).1 rfl

theorem chainTrace_head (x : Except RErr RMod) (rest : List (Except RErr RMod)) :
    (chainTrace (x :: rest)).2 = failWithIgnore x fun _ => (chainTrace rest).2 := by
  rcases x with e | m
  · rcases e with _ | msg <;> rfl
  · rfl

theorem failWithIgnore_unable (x : Except RErr RMod) :
    failWithIgnore x (fun _ => .error .unableToResolve) = x := by
  rcases x with e | m
  · rcases e with _ | msg <;> rfl
  · rfl

theorem chainTrace_prefix (l : List (Except RErr RMod)) : (chainTrace l).1 <+: l := by
  induction l with
  | nil => exact List.prefix_refl _
  | cons r rest ih =>
    rcases hr : r with e | m
    · rcases e with _ | msg
      · simpa [chainTrace, List.cons_prefix_cons] using ih
      · exact ⟨rest, rfl⟩
    · exact ⟨rest, rfl⟩

theorem chainTrace_nil :
    chainTrace ([] : List (Except RErr RMod)) = ([], .error .unableToResolve) := rfl

theorem chainTrace_cons_unable (rest : List (Except RErr RMod)) :
    chainTrace (.error .unableToResolve :: rest)
      = (.error .unableToResolve :: (chainTrace rest).1, (chainTrace rest).2) := rfl

theorem chainTrace_cons_ok (m : RMod) (rest : List (Except RErr RMod)) :
    chainTrace (.ok m :: rest) = ([.ok m], .ok m) := rfl

theorem chainTrace_cons_other (msg : String) (rest : List (Except RErr RMod)) :
    chainTrace (.error (.other msg) :: rest)
      = ([.error (.other msg)], .error (.other msg)) := rfl

theorem chainTrace_ne_nil (l : List (Except RErr RMod)) (h : l ≠ []) :
    (chainTrace l).1 ≠ [] := by
  cases l with
  | nil => simp at h
  | cons r rest =>
    rcases r with e | m
    · rcases e with _ | msg
      · rw [chainTrace_cons_unable]; simp
      · rw [chainTrace_cons_other]; simp
    · rw [chainTrace_cons_ok]; simp

theorem chainTrace_last (l : List (Except RErr RMod)) (h : l ≠ []) :
    (chainTrace l).1.getLast? = some (chainTrace l).2 := by
  induction l with
  | nil => simp at h
  | cons r rest ih =>
    rcases r with e | m
    · rcases e with _ | msg
      · rw [chainTrace_cons_unable]
        simp only
        by_cases hr : rest = []
        · subst hr; simp [chainTrace_nil]
        · have h2 := ih hr
          have h3 := chainTrace_ne_nil rest hr
          rcases hrest : (chainTrace rest).1 with _ | ⟨y, ys⟩
          · exact absurd hrest h3
          · rw [hrest] at h2
            rw [List.getLast?_cons_cons]
            exact h2
      · rw [chainTrace_cons_other]; simp
    · rw [chainTrace_cons_ok]; simp

theorem chainTrace_init_unable (l : List (Except RErr RMod)) :
    ∀ k, k + 1 < (chainTrace l).1.length →
      (chainTrace l).1[k]? = some (.error .unableToResolve) := by
  induction l with
  | nil => intro k hk; simp [chainTrace_nil] at hk
  | cons r rest ih =>
    intro k hk
    rcases r with e | m
    · rcases e with _ | msg
      · rw [chainTrace_cons_unable] at hk ⊢
        simp only at hk ⊢
        cases k with
        | zero => simp
        | succ k2 =>
          simp only [List.getElem?_cons_succ]
          exact ih k2 (by simpa using hk)
      · rw [chainTrace_cons_other] at hk
        simp at hk
    · rw [chainTrace_cons_ok] at hk
      simp at hk

theorem chainTrace_other_last (l : List (Except RErr RMod)) (msg : String) :
    (chainTrace l).2 = .error (.other msg) →
      (chainTrace l).1.getLast? = some (.error (.other msg)) := by
  induction l with
  | nil => intro h; simp [chainTrace_nil] at h
  | cons r rest ih =>
    intro h
    rcases r with e | m
    · rcases e with _ | m2
      · rw [chainTrace_cons_unable] at h ⊢
        simp only at h ⊢
        have h2 := ih h
        rcases hrest : (chainTrace rest).1 with _ | ⟨y, ys⟩
        · rw [hrest] at h2
          simp at h2
        · rw [hrest] at h2
          rw [List.getLast?_cons_cons]
          exact h2
      · rw [chainTrace_cons_other] at h ⊢
        simp only at h ⊢
        simp_all
    · rw [chainTrace_cons_ok] at h
      simp at h

theorem chainTrace_ok_last (l : List (Except RErr RMod)) (m : RMod) :
    (chainTrace l).2 = .ok m → (chainTrace l).1.getLast? = some (.ok m) := by
  induction l with
  | nil => intro h; simp [chainTrace_nil] at h
  | cons r rest ih =>
    intro h
    rcases r with e | m2
    · rcases e with _ | m3
      · rw [chainTrace_cons_unable] at h ⊢
        simp only at h ⊢
        have h2 := ih h
        rcases hrest : (chainTrace rest).1 with _ | ⟨y, ys⟩
        · rw [hrest] at h2
          simp at h2
        · rw [hrest] at h2
          rw [List.getLast?_cons_cons]
          exact h2
      · rw [chainTrace_cons_other] at h
        simp at h
    · rw [chainTrace_cons_ok] at h ⊢
      simp only at h ⊢
      simp_all

theorem chainTrace_unable_all (l : List (Except RErr RMod)) :
    (chainTrace l).2 = .error .unableToResolve →
      (chainTrace l).1 = l ∧ ∀ x ∈ l, x = .error .unableToResolve := by
  induction l with
  | nil => intro _; simp [chainTrace_nil]
  | cons r rest ih =>
    intro h
    rcases r with e | m
    · rcases e with _ | msg
      · rw [chainTrace_cons_unable] at h ⊢
        simp only at h ⊢
        obtain ⟨h1, h2⟩ := ih h
        refine ⟨by simpa using h1, ?_⟩
        intro x hx
        rcases List.mem_cons.mp hx with hx1 | hx1
        · exact hx1
        · exact h2 x hx1
      · rw [chainTrace_cons_other] at h
        simp at h
    · rw [chainTrace_cons_ok] at h
      simp at h

/-- C1. The resolver attempts its strategies in the fixed order redirect,
asset, haste, lotus (project path), node (installed package). A redirect
error propagates unchanged and attempts no strategy; a non-string redirect
outcome short-circuits to the null module; otherwise the attempted strategies
form a prefix of the fixed strategy list, every attempted strategy before the
last rejected with `UnableToResolveError` (so a later strategy runs only when
the previous one failed that way), the overall outcome is the last attempted
strategy's outcome (so a strategy's error that is not `UnableToResolveError`
propagates to the caller unchanged) and the chain
fails with `UnableToResolveError` only when all four strategies were
attempted and all rejected that way. -/
theorem resolveModule_strategy_order (requiredPath : String)
    (redirected : Except RErr (Option String))
    (asset haste lotus node : String → Except RErr RMod) :
    (∀ e, redirected = .error e →
      resolveModule requiredPath redirected asset haste lotus node = .error e)
    ∧ (redirected = .ok none →
      resolveModule requiredPath redirected asset haste lotus node
        = .ok (.nullMod requiredPath))
    ∧ (∀ p, redirected = .ok (some p) →
        resolveModule requiredPath redirected asset haste lotus node
            = (chainTrace [asset p, haste p, lotus p, node p]).2
        ∧ (chainTrace [asset p, haste p, lotus p, node p]).1
            <+: [asset p, haste p, lotus p, node p]
        ∧ (∀ k, k + 1 < (chainTrace [asset p, haste p, lotus p, node p]).1.length →
            (chainTrace [asset p, haste p, lotus p, node p]).1[k]?
              = some (.error .unableToResolve))
        ∧ (chainTrace [asset p, haste p, lotus p, node p]).1.getLast?
            = some (chainTrace [asset p, haste p, lotus p, node p]).2
        ∧ (∀ msg,
            (chainTrace [asset p, haste p, lotus p, node p]).2 = .error (.other msg) →
            (chainTrace [asset p, haste p, lotus p, node p]).1.getLast?
              = some (.error (.other msg)))
        ∧ (∀ m, (chainTrace [asset p, haste p, lotus p, node p]).2 = .ok m →
            (chainTrace [asset p, haste p, lotus p, node p]).1.getLast? = some (.ok m))
        ∧ ((chainTrace [asset p, haste p, lotus p, node p]).2
              = .error .unableToResolve →
            (chainTrace [asset p, haste p, lotus p, node p]).1
                = [asset p, haste p, lotus p, node p]
            ∧ ∀ x ∈ [asset p, haste p, lotus p, node p],
                x = .error .unableToResolve)) := by
  refine ⟨fun e he => by subst he; rfl, fun h => by subst h; rfl, fun p hp => ?_⟩
  subst hp
  refine ⟨?_, chainTrace_prefix _, chainTrace_init_unable _,
    chainTrace_last _ (by simp),
    fun msg => chainTrace_other_last _ msg,
    fun m => chainTrace_ok_last _ m, chainTrace_unable_all _⟩
  have hdef : resolveModule requiredPath (.ok (some p)) asset haste lotus node
      = failWithIgnore (asset p) fun _ => failWithIgnore (haste p) fun _ =>
          failWithIgnore (lotus p) fun _ => node p := rfl
  rw [hdef]
  simp only [chainTrace_head, chainTrace_nil, failWithIgnore_unable]

theorem lookupKey_none_of_not_mem {κ β : Type} [DecidableEq κ] (l : List (κ × β))
    (k : κ) (h : k ∉ l.map Prod.fst) : lookupKey l k = none := by
  induction l with
  | nil => rfl
  | cons p rest ih =>
    obtain ⟨a, b⟩ := p
    simp only [List.map_cons, List.mem_cons, not_or] at h
    simp only [lookupKey]
    rw [if_neg fun hk => h.1 hk.symm]
    exact ih h.2

theorem keys_setKey_of_lookup_some {κ β : Type} [DecidableEq κ] (l : List (κ × β))
    (k : κ) (v w : β) (h : lookupKey l k = some v) :
    (setKey l k w).map Prod.fst = l.map Prod.fst := by
  induction l with
  | nil => simp [lookupKey] at h
  | cons p rest ih =>
    obtain ⟨a, b⟩ := p
    by_cases hp : a = k
    · simp [setKey, hp]
    · simp only [lookupKey, hp, reduceIte] at h
      simp [setKey, hp, ih h]

theorem lookupKey_eraseKey_self {κ β : Type} [DecidableEq κ] (l : List (κ × β))
    (k : κ) (h : (l.map Prod.fst).Nodup) : lookupKey (eraseKey l k) k = none := by
  induction l with
  | nil => rfl
  | cons p rest ih =>
    obtain ⟨a, b⟩ := p
    simp only [List.map_cons, List.nodup_cons] at h
    by_cases hp : a = k
    · simp only [eraseKey, hp, reduceIte]
      exact lookupKey_none_of_not_mem rest k (hp ▸ h.1)
    · simp only [eraseKey, hp, reduceIte, lookupKey]
      exact ih h.2

theorem barrier_iff_resolving (s : CacheState) (h : Reachable s) :
    s.allResolved = true ↔ s.resolving ≠ [] := by
  induction h with
  | init => simp [initCache]
  | stepGetResolution s m h ih =>
    by_cases hm : m ∈ s.resolutions <;> simpa [getResolution, hm] using ih
  | stepDeleteResolution s m h ih =>
    by_cases hm : m ∈ s.resolutions <;> simpa [deleteResolution, hm] using ih
  | stepMarkDirty s r h ih =>
    by_cases hr : r ∈ s.dirty <;> simpa [markDirty, hr] using ih
  | stepMarkResolving s r h ih =>
    by_cases hr : r ∈ s.resolving
    · simpa [markResolving, hr] using ih
    · simp [markResolving, hr]
  | stepMarkResolved s r h ih =>
    by_cases hr : r ∈ s.resolving
    · by_cases he : s.resolving.erase r = []
      · simp [markResolved, hr, he]
      · have hne : s.resolving ≠ [] := by
          intro hnil; rw [hnil] at hr; simp at hr
        simp [markResolved, hr, he, ih.mpr hne]
    · simpa [markResolved, hr] using ih
  | stepAddDepender s m d h ih =>
    simpa [addDepender] using ih
  | stepDeleteDepender s m d h ih =>
    rcases hdep : lookupKey s.dependers m with _ | cur
    · simpa [deleteDepender, hdep] using ih
    · by_cases he : cur.erase d = [] <;>
        by_cases hm : m ∈ s.resolutions <;>
        simpa [deleteDepender, hdep, he, deleteResolution, hm] using ih
  | stepClearDependers s m newlyDirty h ih =>
    rcases hdep : lookupKey s.dependers m with _ | cur <;>
      simpa [clearDependers, hdep] using ih
  | stepAllResolved s h ih =>
    by_cases hd : s.dirty = [] <;> simpa [allResolvedOp, flushDirty, hd] using ih

/-- C3. In every reachable cache state the `_allResolved` barrier is present
(and unfulfilled) exactly when `_resolving` is non-empty; `allResolved`
schedules `reloadRequires({force: true, recursive: false})` on every dirty
resolution and clears the dirty set before returning the current barrier
(touching neither `_resolving` nor the barrier); and `markResolved` fulfills
the barrier exactly when it removes the last member of `_resolving`. -/
theorem allResolved_barrier_behavior :
    (∀ s : CacheState, Reachable s → (s.allResolved = true ↔ s.resolving ≠ []))
    ∧ (∀ s : CacheState,
        (allResolvedOp s).2.1 = s.dirty.map (fun r => (r, true, false))
          ∧ (allResolvedOp s).1.dirty = []
          ∧ (allResolvedOp s).2.2 = s.allResolved
          ∧ (allResolvedOp s).1.resolving = s.resolving
          ∧ (allResolvedOp s).1.allResolved = s.allResolved)
    ∧ (∀ (s : CacheState) (r : Nat),
        (markResolved s r).1.events
          = if r ∈ s.resolving ∧ s.resolving.erase r = []
            then s.events ++ [CacheEvent.barrierFulfilled]
            else s.events) := by
  refine ⟨barrier_iff_resolving, fun s => ?_, fun s r => ?_⟩
  · by_cases hd : s.dirty = [] <;> simp [allResolvedOp, flushDirty, hd]
  · by_cases hr : r ∈ s.resolving
    · by_cases he : s.resolving.erase r = [] <;> simp [markResolved, hr, he]
    · simp [markResolved, hr]

/-- C8. Whenever `deleteDepender` removes the last depender of a module, the
module retains no `Resolution` record; and when it held one, the record (and
the module's dependers entry) is deleted and `didDelete` fires for it. The
`Nodup` hypotheses state that `_resolutions` and `_dependers` are JS `Map`s:
their keys are unique. -/
theorem deleteDepender_last_depender (s : CacheState) (m d : Nat)
    (hres : s.resolutions.Nodup)
    (hkeys : (s.dependers.map Prod.fst).Nodup)
    (hdep : lookupKey s.dependers m = some [d]) :
    m ∉ (deleteDepender s m d).resolutions
    ∧ (m ∈ s.resolutions →
        (deleteDepender s m d).events = s.events ++ [CacheEvent.didDelete m]
          ∧ lookupKey (deleteDepender s m d).dependers m = none) := by
  unfold deleteDepender
  rw [hdep]
  dsimp only
  simp only [List.erase_cons_head, reduceIte]
  unfold deleteResolution
  by_cases hm : m ∈ s.resolutions
  · rw [if_pos hm]
    refine ⟨hres.not_mem_erase, fun _ => ⟨rfl, ?_⟩⟩
    exact lookupKey_eraseKey_self _ m
      ((keys_setKey_of_lookup_some s.dependers m [d] [] hdep).symm ▸ hkeys)
  · rw [if_neg hm]
    exact ⟨hm, fun hin => absurd hin hm⟩

/-- C8 witness: in a concrete cache state where module 0 holds a resolution
record and exactly the depender 1, deleting that depender deletes the record,
removes the dependers entry and emits `didDelete 0`. -/
theorem deleteDepender_last_depender_witness :
    0 ∉ (deleteDepender cacheStateW 0 1).resolutions
      ∧ (deleteDepender cacheStateW 0 1).events
          = cacheStateW.events ++ [CacheEvent.didDelete 0]
      ∧ lookupKey (deleteDepender cacheStateW 0 1).dependers 0 = none := by
  have h := deleteDepender_last_depender cacheStateW 0 1 (by decide) (by decide) rfl
  exact ⟨h.1, (h.2 (by decide)).1, (h.2 (by decide)).2⟩

/-- C10 counterexample. The path `/a/.json` ends in `.json`, but its
basename is dot-initial so `isJSON()` (which compares `extname` to `.json`)
is false: with no docblock `extern` directive and no transform-supplied
dependency list, `require` extraction still runs and reports a dependency. -/
theorem moduleRead_dotjson_basename :
    strEndsWith "/a/.json" ".json" = true
      ∧ moduleReadDependencies "/a/.json" [] ⟨"", none⟩ oneDepExtractor = ["x"]
      ∧ (["x"] : List String) ≠ [] :=
  ⟨rfl, rfl, by decide⟩

/-- C10 (amended). For every module whose path's *extension* (`extname`) is
`.json` — a dot-initial basename such as `.json` carries no extension — or
whose leading docblock contains an `extern` directive, `Module.read` returns
an empty dependency list unless the transform result explicitly supplies one,
so `require()` calls in such a file's source are never extracted. -/
theorem moduleRead_extern_dependencies (modulePath : String)
    (moduleDocBlock : List (String × String)) (result : TransformResult)
    (extractor : String → List String)
    (hext : extname modulePath = ".json" ∨ (lookupKey moduleDocBlock "extern").isSome) :
    (result.dependencies = none →
      moduleReadDependencies modulePath moduleDocBlock result extractor = [])
    ∧ (∀ d, result.dependencies = some d →
        moduleReadDependencies modulePath moduleDocBlock result extractor = d) := by
  constructor
  · intro hnone
    simp [moduleReadDependencies, hnone, hext]
  · intro d hsome
    simp [moduleReadDependencies, hsome]

/-- C10 witness: a concrete `.json` module with no transform-supplied
dependency list reads as having no dependencies, although the extractor would
report one. -/
theorem moduleRead_extern_dependencies_witness :
    moduleReadDependencies "/a/b.json" [] plainTransformResult oneDepExtractor = [] :=
  (moduleRead_extern_dependencies "/a/b.json" [] plainTransformResult oneDepExtractor
    (Or.inl rfl)).1 rfl

/-! ### Termination of the installed-package walk

Claim C7's walk does terminate (the stale `lastIndex` of the stateful regex
makes every second test on a `node_modules` directory fail, so `dirname`
progress happens within two iterations); these lemmas establish it for every
absolute requester path. -/

theorem isAbsolute_head (s : String) (h : isAbsolute s = true) :
    ∃ t, s.data = '/' :: t := by
  unfold isAbsolute strStartsWith at h
  rw [List.isPrefixOf_iff_prefix] at h
  obtain ⟨t, ht⟩ := h
  have hslash : ("/" : String).data = ['/'] := rfl
  rw [hslash] at ht
  exact ⟨t, ht.symm⟩

theorem dropWhile_slash_ne_nil (s : String) (habs : isAbsolute s = true) :
    s.data.reverse.dropWhile (· != '/') ≠ [] := by
  obtain ⟨t, ht⟩ := isAbsolute_head s habs
  intro hnil
  rw [List.dropWhile_eq_nil_iff] at hnil
  have hm : '/' ∈ s.data.reverse := by rw [ht]; simp
  have := hnil '/' hm
  simp at this

theorem dirname_length_le (s : String) (habs : isAbsolute s = true) :
    (dirname s).data.length ≤ s.data.length ∧
      (s.data ≠ ['/'] → (dirname s).data.length < s.data.length) := by
  obtain ⟨t, ht⟩ := isAbsolute_head s habs
  unfold dirname
  rcases hsplit : s.data.reverse.dropWhile (· != '/') with _ | ⟨c, rest⟩
  · exact absurd hsplit (dropWhile_slash_ne_nil s habs)
  · dsimp only
    have h2 := List.takeWhile_append_dropWhile (p := (· != '/')) (l := s.data.reverse)
    rw [hsplit] at h2
    have h3 := congrArg List.length h2
    simp only [List.length_append, List.length_cons, List.length_reverse] at h3
    by_cases hrest : rest = []
    · subst hrest
      simp only [reduceIte]
      have hone : ("/" : String).data.length = 1 := rfl
      constructor
      · rw [hone, ht]; simp
      · intro hne
        have htne : t ≠ [] := fun h0 => hne (by rw [ht, h0])
        rw [hone, ht]
        cases t with
        | nil => exact absurd rfl htne
        | cons a as => simp
    · rw [if_neg hrest]
      have hmk : (String.mk rest.reverse).data.length = rest.length := by simp
      constructor
      · rw [hmk]; omega
      · intro _; rw [hmk]; omega

theorem dirname_isAbsolute (s : String) (habs : isAbsolute s = true) :
    isAbsolute (dirname s) = true := by
  obtain ⟨t, ht⟩ := isAbsolute_head s habs
  unfold dirname
  rcases hsplit : s.data.reverse.dropWhile (· != '/') with _ | ⟨c, rest⟩
  · exact absurd hsplit (dropWhile_slash_ne_nil s habs)
  · dsimp only
    by_cases hrest : rest = []
    · subst hrest; rw [if_pos rfl]; decide
    · rw [if_neg hrest]
      have h2 := List.takeWhile_append_dropWhile (p := (· != '/')) (l := s.data.reverse)
      rw [hsplit] at h2
      have h3 : s.data = rest.reverse ++ ([c] ++ (s.data.reverse.takeWhile (· != '/')).reverse) := by
        have h4 := congrArg List.reverse h2
        simpa [List.reverse_append] using h4.symm
      rcases hrev : rest.reverse with _ | ⟨y, ys⟩
      · exact absurd (by simpa using congrArg List.reverse hrev) hrest
      · rw [hrev, ht] at h3
        simp only [List.cons_append] at h3
        injection h3 with hy _
        unfold isAbsolute strStartsWith
        rw [List.isPrefixOf_iff_prefix]
        refine ⟨ys, ?_⟩
        show ['/'] ++ ys = y :: ys
        rw [← hy]
        rfl

theorem installedSearchLoop_step (moduleName root : String) (n : Nat)
    (d : String) (li : Nat) (acc : List String) (hroot : d ≠ root) :
    installedSearchLoop moduleName root (n + 1) d li acc
      = (if (regexTestNodeModulesG li d).1
         then installedSearchLoop moduleName root n d (regexTestNodeModulesG li d).2 acc
         else installedSearchLoop moduleName root n (dirname d)
                (regexTestNodeModulesG li d).2
                (joinPath (joinPath d "node_modules") moduleName :: acc)) := by
  conv_lhs => unfold installedSearchLoop
  rw [if_neg hroot]

theorem regexTest_stale_false (d : String) :
    regexTestNodeModulesG d.data.length d = (false, 0) := by
  unfold regexTestNodeModulesG
  rw [if_neg]
  rintro ⟨_, hle⟩
  omega

theorem installedSearchLoop_completes (moduleName : String) :
    ∀ len (d : String), d.data.length = len → isAbsolute d = true →
      ∀ li acc n, 2 * len + 1 ≤ n → ∃ q,
        installedSearchLoop moduleName "/" n d li acc = some q := by
  intro len
  induction len using Nat.strong_induction_on with
  | _ len ih =>
    intro d hlen habs li acc n hn
    obtain ⟨n2, rfl⟩ : ∃ n2, n = n2 + 1 := ⟨n - 1, by omega⟩
    by_cases hroot : d = "/"
    · refine ⟨acc.reverse, ?_⟩
      unfold installedSearchLoop
      rw [if_pos hroot]
    · have hne : d.data ≠ ['/'] := by
        intro h0
        exact hroot (show d = "/" from String.ext h0)
      have hlt := (dirname_length_le d habs).2 hne
      have habs2 := dirname_isAbsolute d habs
      rw [installedSearchLoop_step moduleName "/" n2 d li acc hroot]
      by_cases ht : (regexTestNodeModulesG li d).1
      · rw [if_pos ht]
        have h2 : (regexTestNodeModulesG li d).2 = d.data.length := by
          unfold regexTestNodeModulesG at ht ⊢
          by_cases hc : strEndsWith d "node_modules" ∧ li + 12 ≤ d.data.length
          · rw [if_pos hc]
          · rw [if_neg hc] at ht; simp at ht
        obtain ⟨n3, rfl⟩ : ∃ n3, n2 = n3 + 1 := ⟨n2 - 1, by omega⟩
        rw [installedSearchLoop_step moduleName "/" n3 d _ acc hroot, h2,
          regexTest_stale_false d]
        simp only [Bool.false_eq_true, if_false, reduceIte]
        exact ih (dirname d).data.length (by omega) (dirname d) rfl habs2 0 _ n3 (by omega)
      · rw [if_neg ht]
        exact ih (dirname d).data.length (by omega) (dirname d) rfl habs2 _ _ n2 (by omega)

/-- The walk of `_resolveInstalledModule` terminates for every absolute
requester path: with fuel `2·|path| + 1` the loop exits and yields a queue. -/
theorem installedSearchQueue_terminates (extraNodeModules : List (String × String))
    (modulePath moduleName : String) (habs : isAbsolute modulePath = true) :
    ∃ q, installedSearchQueue extraNodeModules modulePath moduleName
        (2 * modulePath.data.length + 1) = some q := by
  have habs2 := dirname_isAbsolute modulePath habs
  have hle := (dirname_length_le modulePath habs).1
  obtain ⟨q, hq⟩ := installedSearchLoop_completes moduleName
    (dirname modulePath).data.length (dirname modulePath) rfl habs2 0 []
    (2 * modulePath.data.length + 1) (by omega)
  refine ⟨?_, ?_⟩
  · exact (match pathSegs moduleName with
      | [] => q
      | p0 :: rest =>
        match lookupKey extraNodeModules p0 with
        | some base => q ++ [rest.foldl joinPath base]
        | none => q)
  · unfold installedSearchQueue parsedRoot
    rw [if_pos habs, hq]
    rfl

end NodeHaste
